import Mathlib

/-!
Verification development for the excel-to-pdf layout core.

The JavaScript source is shallowly embedded: strings become `List Char`,
JS numbers become exact rationals `ℚ` (the values the claims exercise are
all exactly representable decimals; scientific-notation output of extreme
floats is not modelled), fallible operations return `Option`, and the
`while`/`for` loops become structural recursions (bounded by an explicit
fuel argument equal to a quantity the loop strictly decreases, so the fuel
never runs out on the loop's actual domain).
-/

namespace ExcelToPdf

/-! ### Reference codec

`encodeCell` embeds `src/src/lib/encodeCell.js`; `decodeCell` embeds the
`decodeCell` function (src/unnamed/part_000).  The regex
`^([A-Z]+)(\d+)$` of `decodeCell` is an anchored match of a character
class `[A-Z]` block followed by a `\d` block; since the two classes are
disjoint, the greedy match is exactly `takeWhile`/`dropWhile`. -/

/-- Character class `[A-Z]` of the reference regex (code points 65..90). -/
def isUpperCh (c : Char) : Bool := decide (65 ≤ c.toNat ∧ c.toNat ≤ 90)

/-- Character class `\d` of the reference regex (code points 48..57). -/
def isDigitCh (c : Char) : Bool := decide (48 ≤ c.toNat ∧ c.toNat ≤ 57)

/-- Result shape of `decodeCell`: `{ row, col }`. -/
structure CellRef where
  row : Nat
  col : Nat
  deriving DecidableEq

/-- The `while (col > 0)` loop of `encodeCell`, with explicit fuel: each
iteration replaces `col` by `(col - 1) / 26 < col`, so fuel `col` suffices.
The letter for the last base-26 digit is appended on the right because the
JS loop prepends earlier letters on the left. -/
def encodeColumnAux : Nat → Nat → List Char
  | 0, _ => []
  | fuel + 1, col =>
    if col = 0 then []
    else encodeColumnAux fuel ((col - 1) / 26) ++ [Char.ofNat (65 + (col - 1) % 26)]

/-- Column-letter part of `encodeCell(row, col)`. -/
def encodeColumn (col : Nat) : List Char := encodeColumnAux col col

/-- Decimal rendering of a natural number (JS template interpolation of a
nonnegative integer), with fuel: each step replaces `n` by `n / 10 < n`. -/
def natDigitsAux : Nat → Nat → List Char
  | 0, n => [Char.ofNat (48 + n % 10)]
  | fuel + 1, n =>
    if n < 10 then [Char.ofNat (48 + n)]
    else natDigitsAux fuel (n / 10) ++ [Char.ofNat (48 + n % 10)]

/-- Decimal digits of `n`, e.g. `natDigits 0 = "0"`, `natDigits 407 = "407"`. -/
def natDigits (n : Nat) : List Char := natDigitsAux n n

/-- `encodeCell(row, col)` returns `` `${colLetters}${row}` ``. -/
def encodeCell (row col : Nat) : List Char := encodeColumn col ++ natDigits row

/-- The letters-to-column loop of `decodeCell`:
`col = col * 26 + (charCode - 64)` over the letter block. -/
def lettersToCol (s : List Char) : Nat :=
  s.foldl (fun acc ch => acc * 26 + (ch.toNat - 64)) 0

/-- `parseInt(digits, 10)` on the digit block of `decodeCell`. -/
def digitsToNat (s : List Char) : Nat :=
  s.foldl (fun acc ch => acc * 10 + (ch.toNat - 48)) 0

/-- `decodeCell(ref)`: `none` models the thrown `Invalid cell reference`
error; otherwise the `{ row, col }` pair. -/
def decodeCell (s : List Char) : Option CellRef :=
  let letters := s.takeWhile isUpperCh
  let rest := s.dropWhile isUpperCh
  if letters ≠ [] ∧ rest ≠ [] ∧ rest.all isDigitCh then
    some ⟨digitsToNat rest, lettersToCol letters⟩
  else none

/-- A reference string accepted by the regex `^([A-Z]+)(\d+)$`: one or more
uppercase letters followed by one or more digits, nothing else. -/
def ValidRef (s : List Char) : Prop :=
  ∃ L D, s = L ++ D ∧ L ≠ [] ∧ D ≠ [] ∧ L.all isUpperCh = true ∧ D.all isDigitCh = true

/-! ### JS number rendering

`toFixed` follows ECMA-262 `Number.prototype.toFixed`: a negative value is
rendered as `-` followed by the rendering of its negation; for `x ≥ 0` the
integer `n` minimizing `|n / 10^d - x|` is chosen, ties picking the larger
`n` (i.e. `n = ⌊x·10^d + 1/2⌋`).  `jsNumToString` renders the exact
shortest decimal expansion (JS prints the shortest decimal that round-trips
through the float; for the exactly-representable decimal values modelled
here, that is the exact expansion). -/

/-- Left-pad a digit list with zeros to length `d`. -/
def padZeros (d : Nat) (ds : List Char) : List Char :=
  List.replicate (d - ds.length) '0' ++ ds

/-- Round `q·10^d` half-up to an integer, for `q ≥ 0`:
`⌊q·10^d + 1/2⌋ = (2·num + den) fdiv (2·den)` of the scaled rational. -/
def jsRoundHalfUp (q : ℚ) (d : Nat) : Nat :=
  let s : ℚ := q * (10 : ℚ) ^ d
  (Int.fdiv (2 * s.num + (s.den : Int)) (2 * (s.den : Int))).toNat

/-- Rendering of `x.toFixed(d)` for `x ≥ 0`. -/
def toFixedNonneg (q : ℚ) (d : Nat) : List Char :=
  let n := jsRoundHalfUp q d
  if d = 0 then natDigits n
  else natDigits (n / 10 ^ d) ++ '.' :: padZeros d (natDigits (n % 10 ^ d))

/-- `value.toFixed(d)`. -/
def toFixed (q : ℚ) (d : Nat) : List Char :=
  if q < 0 then '-' :: toFixedNonneg (-q) d else toFixedNonneg q d

/-- Smallest `k < 40` with `den ∣ 10^k`: the length of the exact decimal
fraction part.  `List.range` is ascending, so `find?` returns the least. -/
def findDecExp (den : Nat) : Option Nat :=
  (List.range 40).find? fun k => decide (10 ^ k % den = 0)

/-- `value.toString()` of a JS number modelled as an exact rational:
integers print without a point, other values print sign, integer part,
point, and the exact (shortest) fraction digits. -/
def jsNumToString (q : ℚ) : List Char :=
  if q.den = 1 then
    (if q.num < 0 then ['-'] else []) ++ natDigits q.num.natAbs
  else
    let sign : List Char := if q < 0 then ['-'] else []
    match findDecExp q.den with
    | some k =>
        let n := (|q| * (10 : ℚ) ^ k).num.natAbs
        sign ++ natDigits (n / 10 ^ k) ++ '.' :: padZeros k (natDigits (n % 10 ^ k))
    | none => sign ++ natDigits q.num.natAbs ++ '.' :: ['?']

/-! ### Cell model and `extractCellText`
(src/src/lib/utils/extractCellText.js)

`cell.value` is one of: null/undefined, a number, a string, a boolean, or
an object; an object value carries the optional fields the code inspects
(`result`, `richText`, `hyperlink`, `text`, `formula`, `error`,
`sharedFormula`).  A JS string field is `Option (List Char)`: `none` is
`undefined`, and truthiness of a present string is non-emptiness.
`toLocaleDateString` is locale-dependent I/O, so it is passed in as an
explicit function argument `locDate`; no claim depends on it. -/

/-- Leaf value a formula `result` can hold (`typeof` dispatch in the code). -/
inductive JsLeaf where
  | lnum (q : ℚ)
  | lstr (s : List Char)
  | lbool (b : Bool)
  deriving DecidableEq

/-- One run of a `richText` array; `text` may be missing (`part.text || ""`). -/
structure RichRun where
  text : Option (List Char)
  deriving DecidableEq

/-- Object-shaped `cell.value` with the fields `extractCellText` inspects. -/
structure JsObject where
  result : Option JsLeaf
  richText : Option (List RichRun)
  hyperlink : Option (List Char)
  vtext : Option (List Char)
  formula : Option (List Char)
  error : Option (List Char)
  sharedFormula : Option (List Char)
  deriving DecidableEq

/-- Tagged `cell.value`. -/
inductive CellValue where
  | vnull
  | vnum (q : ℚ)
  | vstr (s : List Char)
  | vbool (b : Bool)
  | vobj (o : JsObject)
  deriving DecidableEq

/-- A cell as `extractCellText` sees it: `value`, the collaborator-supplied
rendered text `cell.text`, and the number-format hint `cell.numFmt`. -/
structure Cell where
  value : CellValue
  text : Option (List Char)
  numFmt : Option (List Char)
  deriving DecidableEq

/-- JS truthiness of an optional string: present and non-empty. -/
def truthyStr : Option (List Char) → Bool
  | some s => !s.isEmpty
  | none => false

/-- JS `x || ""` on an optional string. -/
def orEmpty : Option (List Char) → List Char
  | some s => s
  | none => []

/-- Prefix test: does `sub` occur at the start of the second list? -/
def leadsWith : List Char → List Char → Bool
  | [], _ => true
  | _ :: _, [] => false
  | a :: as, b :: bs => a == b && leadsWith as bs

/-- `s.includes(sub)`: `sub` occurs contiguously somewhere in `s`. -/
def hasSubstr (sub : List Char) : List Char → Bool
  | [] => sub.isEmpty
  | c :: rest => leadsWith sub (c :: rest) || hasSubstr sub rest

/-- The format-hint test of the code:
`format.includes('0.00') || format.includes('#.##') || format.includes('0.0')`. -/
def fmtHasDecimalHint (fmt : List Char) : Bool :=
  hasSubstr "0.00".data fmt || hasSubstr "#.##".data fmt || hasSubstr "0.0".data fmt

/-- First match of the regex `/\.0+/`: a literal dot followed by a maximal
run of one or more zeros; returns the run length (match length minus one).
When a dot is not followed by a zero the regex engine resumes searching
right after that dot. -/
def dotZeros : List Char → Option Nat
  | [] => none
  | '.' :: rest =>
      let z := (rest.takeWhile (fun c => c == '0')).length
      if z > 0 then some z else dotZeros rest
  | _ :: rest => dotZeros rest

/-- `decimalMatch ? decimalMatch[0].length - 1 : fixedAt`. -/
def decPlaces (fmt : List Char) (fixedAt : Nat) : Nat :=
  match dotZeros fmt with
  | some z => z
  | none => fixedAt

/-- JS `toUpperCase` on one character (ASCII range, which covers the error
codes the code uppercases). -/
def jsToUpper (c : Char) : Char :=
  if 97 ≤ c.toNat ∧ c.toNat ≤ 122 then Char.ofNat (c.toNat - 32) else c

/-- JS `String(b)` for a boolean. -/
def boolStr (b : Bool) : List Char := if b then "true".data else "false".data

/-- JS `String(result)` for a formula result leaf. -/
def leafToString : JsLeaf → List Char
  | .lnum q => jsNumToString q
  | .lstr s => s
  | .lbool b => boolStr b

/-- The regex `/^\d{4}-\d{2}-\d{2}T\d{2}:\d{2}:\d{2}\.\d{3}Z$/` of the
string branch. -/
def isIsoDate (s : List Char) : Bool :=
  match s with
  | [y1, y2, y3, y4, '-', m1, m2, '-', d1, d2, 'T',
     h1, h2, ':', n1, n2, ':', s1, s2, '.', f1, f2, f3, 'Z'] =>
      [y1, y2, y3, y4, m1, m2, d1, d2, h1, h2, n1, n2, s1, s2, f1, f2, f3].all isDigitCh
  | _ => false

/-- Numeric formatting shared by the value-number and result-number paths:
if the hint names decimals, `toFixed` with the extracted count, else the
natural string (the code's separate `% 1 !== 0` and whole-number returns
both call `toString`, so they collapse). -/
def formatJsNumber (q : ℚ) (fmt : List Char) (fixedAt : Nat) : List Char :=
  if fmtHasDecimalHint fmt then toFixed q (decPlaces fmt fixedAt)
  else jsNumToString q

/-- Shallow embedding of `extractCellText(cell, fixedAt)`.  The final
object fallthroughs (`Object.keys(...).length === 0` and the generic
object fallback) both return `""`, so they collapse to `[]`. -/
def extractCellText (locDate : List Char → List Char) (cell : Cell)
    (fixedAt : Nat) : List Char :=
  match cell.value with
  | .vnull => []
  | .vobj o =>
      match o.result with
      | some r =>
          match r with
          | .lnum q => formatJsNumber q (orEmpty cell.numFmt) fixedAt
          | _ => leafToString r
      | none =>
          match o.richText with
          | some runs => (runs.map (fun p => orEmpty p.text)).flatten
          | none =>
              if truthyStr o.hyperlink && truthyStr o.vtext then orEmpty o.vtext
              else if truthyStr o.vtext then orEmpty o.vtext
              else if truthyStr o.formula then
                (if truthyStr o.error then '#' :: (orEmpty o.error).map jsToUpper
                 else if truthyStr cell.text then orEmpty cell.text
                 else '=' :: orEmpty o.formula)
              else if truthyStr o.sharedFormula then
                (if truthyStr cell.text then orEmpty cell.text else "0".data)
              else []
  | .vnum q =>
      let format := orEmpty cell.numFmt
      if fmtHasDecimalHint format then toFixed q (decPlaces format fixedAt)
      else if truthyStr cell.text && (orEmpty cell.text).contains '.' then
        (if !leadsWith "=".data (orEmpty cell.text)
            && !(orEmpty cell.text).contains '(' then orEmpty cell.text
         else jsNumToString q)
      else jsNumToString q
  | .vstr s =>
      if truthyStr cell.text then orEmpty cell.text
      else if isIsoDate s then locDate s
      else s
  | .vbool b =>
      if truthyStr cell.text then orEmpty cell.text
      else boolStr b

/-! ### Merge map (src/src/lib/excel-to-pdf.js, lines 49-96)

The code iterates the worksheet's merge entries in order and, for every
`(r, c)` inside a region's inclusive bounds, overwrites
`mergeMap[`r-c`]` with that region's record, so a later region wins on
overlap.  A cell is treated as secondary exactly when it has an entry
whose `(startRow, startCol)` differs from the cell's own coordinates. -/

/-- One merge region as ExcelJS reports it (`merge.model`), 1-based
inclusive bounds. -/
structure MergeRegion where
  top : Nat
  left : Nat
  bottom : Nat
  right : Nat
  deriving DecidableEq

/-- The record stored in the merge map for every covered cell. -/
structure MergeInfo where
  startRow : Nat
  startCol : Nat
  endRow : Nat
  endCol : Nat
  deriving DecidableEq

/-- Record written for region `m`. -/
def regionInfo (m : MergeRegion) : MergeInfo := ⟨m.top, m.left, m.bottom, m.right⟩

/-- Membership of `(r, c)` in region `m`'s inclusive bounds. -/
def coversB (m : MergeRegion) (r c : Nat) : Bool :=
  decide (m.top ≤ r ∧ r ≤ m.bottom ∧ m.left ≤ c ∧ c ≤ m.right)

/-- Processing one region: overwrite the map on every covered cell. -/
def mergeStep (acc : Nat → Nat → Option MergeInfo) (m : MergeRegion) :
    Nat → Nat → Option MergeInfo :=
  fun r c => if coversB m r c then some (regionInfo m) else acc r c

/-- The merge map built from the ordered region list (later writes win). -/
def buildMergeMap (ms : List MergeRegion) : Nat → Nat → Option MergeInfo :=
  ms.foldl mergeStep fun _ _ => none

/-- The code's secondary-cell test (lines 73-77): an entry exists and the
cell is not that entry's top-left anchor. -/
def isSecondary (mm : Nat → Nat → Option MergeInfo) (r c : Nat) : Bool :=
  match mm r c with
  | some info => decide (r ≠ info.startRow ∨ c ≠ info.startCol)
  | none => false

/-- Anchor test: an entry exists and the cell is its top-left corner. -/
def isAnchor (mm : Nat → Nat → Option MergeInfo) (r c : Nat) : Bool :=
  match mm r c with
  | some info => decide (r = info.startRow ∧ c = info.startCol)
  | none => false

/-! ### Column width solver: merge-anchor update (lines 140-164)

For a merge anchor the code sums `colWidths.slice(startCol - 1, endCol)`,
and if that sum is below the required text width it adds
`(textWidth - mergedWidth) / numCols` to each spanned entry with a `for`
loop from `startCol - 1` to `endCol - 1`. -/

/-- Add `d` to the first `n` entries. -/
def addWidthN : List ℚ → Nat → ℚ → List ℚ
  | ws, 0, _ => ws
  | [], _ + 1, _ => []
  | w :: ws, n + 1, d => (w + d) :: addWidthN ws n d

/-- Add `d` to the `n` entries starting at index `lo`: the `for` loop
`for (i = startCol-1; i < endCol; i++) colWidths[i] += add`. -/
def addWidthFrom : List ℚ → Nat → Nat → ℚ → List ℚ
  | ws, 0, n, d => addWidthN ws n d
  | [], _ + 1, _, _ => []
  | w :: ws, lo + 1, n, d => w :: addWidthFrom ws lo n d

/-- Sum of the `n` entries starting at index `lo`
(`colWidths.slice(lo, lo + n).reduce((s, w) => s + w, 0)`). -/
def sliceSum (ws : List ℚ) (lo n : Nat) : ℚ := ((ws.drop lo).take n).sum

/-- The merge-anchor branch of the width solver for a cell spanning
columns `startCol..endCol` (1-based) whose text needs `textWidth`. -/
def applyMergeAnchorWidth (ws : List ℚ) (startCol endCol : Nat)
    (textWidth : ℚ) : List ℚ :=
  let n := endCol - startCol + 1
  let mergedWidth := sliceSum ws (startCol - 1) n
  if mergedWidth < textWidth then
    addWidthFrom ws (startCol - 1) n ((textWidth - mergedWidth) / (n : ℚ))
  else ws

/-! ### Row placement and pagination (lines 251-261, 404-405)

Per row the code first checks
`enablePagination && y + rowHeight > pageHeight - margin`, on a break
resets `y` to `margin` and adds a page, then draws the row and finally
advances `y` by `rowHeight`.  In the source `margin = 50` and
`rowHeight = 20` are constants; the loop body itself only uses them
through these parameters. -/

/-- The page-break test guarding each row. -/
def pageBreakNeeded (pag : Bool) (pageHeight margin rowHeight y : ℚ) : Bool :=
  pag && decide (y + rowHeight > pageHeight - margin)

/-- Placement trace over `n` rows starting at cursor `y`: per row, whether
a page break fired before it and the `y` the row is drawn at; the cursor
then advances by `rowHeight`.  The code starts the loop with `y = margin`. -/
def placeRowsY (pag : Bool) (pageHeight margin rowHeight : ℚ) :
    Nat → ℚ → List (Bool × ℚ)
  | 0, _ => []
  | n + 1, y =>
    let br := pageBreakNeeded pag pageHeight margin rowHeight y
    let yStart := if br then margin else y
    (br, yStart) :: placeRowsY pag pageHeight margin rowHeight n (yStart + rowHeight)

/-! ### Page-dimension capping (lines 173-208) -/

/-- jsPDF's maximum page dimension in points. -/
def MAX_SIZE : ℚ := 14400

/-- Outcome of the dimension-capping block. -/
structure PageDims where
  pageWidth : ℚ
  pageHeight : ℚ
  pagination : Bool
  deriving DecidableEq

/-- The capping block: mirrors the `if (pageWidth > MAX_SIZE || pageHeight
> MAX_SIZE)` cascade, including its (unreachable) final else that leaves
everything unchanged. -/
def adjustPageDims (pageWidth pageHeight : ℚ) (enablePagination : Bool) : PageDims :=
  if pageWidth > MAX_SIZE ∨ pageHeight > MAX_SIZE then
    if pageHeight > MAX_SIZE ∧ enablePagination = false then
      ⟨if pageWidth > MAX_SIZE then MAX_SIZE else pageWidth, 792, true⟩
    else if pageWidth > MAX_SIZE ∧ pageHeight ≤ MAX_SIZE ∧ enablePagination = false then
      ⟨MAX_SIZE, pageHeight, enablePagination⟩
    else if enablePagination then
      ⟨if pageWidth > MAX_SIZE then MAX_SIZE else pageWidth, 792, enablePagination⟩
    else ⟨pageWidth, pageHeight, enablePagination⟩
  else ⟨pageWidth, pageHeight, enablePagination⟩

/-! ## Theorems -/

/-! ### Reference codec lemmas -/

theorem encodeColumnAux_fuel_eq (fuel : Nat) :
    ∀ fuel' col, col ≤ fuel → col ≤ fuel' →
      encodeColumnAux fuel col = encodeColumnAux fuel' col := by
  induction fuel with
  | zero =>
    intro fuel' col h h'
    interval_cases col
    cases fuel' <;> simp [encodeColumnAux]
  | succ fuel ih =>
    intro fuel' col h h'
    by_cases hc : col = 0
    · subst hc; cases fuel' <;> simp [encodeColumnAux]
    · cases fuel' with
      | zero => omega
      | succ fuel'' =>
        have hlt : (col - 1) / 26 < col := by
          have := Nat.div_le_self (col - 1) 26; omega
        simp only [encodeColumnAux, if_neg hc]
        rw [ih fuel'' ((col - 1) / 26) (by omega) (by omega)]

theorem encodeColumn_eq (col : Nat) :
    encodeColumn col =
      if col = 0 then []
      else encodeColumn ((col - 1) / 26) ++ [Char.ofNat (65 + (col - 1) % 26)] := by
  by_cases hc : col = 0
  · subst hc; rfl
  · have hlt : (col - 1) / 26 < col := by
      have := Nat.div_le_self (col - 1) 26; omega
    unfold encodeColumn
    cases col with
    | zero => omega
    | succ n =>
      simp only [encodeColumnAux, if_neg hc, if_neg (by omega : ¬(n + 1 = 0))]
      rw [encodeColumnAux_fuel_eq n ((n + 1 - 1) / 26) ((n + 1 - 1) / 26) (by omega) (by omega)]

theorem natDigitsAux_fuel_eq (fuel : Nat) :
    ∀ fuel' n, n ≤ fuel → n ≤ fuel' →
      natDigitsAux fuel n = natDigitsAux fuel' n := by
  induction fuel with
  | zero =>
    intro fuel' n h h'
    interval_cases n
    cases fuel' <;> simp [natDigitsAux]
  | succ fuel ih =>
    intro fuel' n h h'
    by_cases hn : n < 10
    · cases fuel' with
      | zero =>
        interval_cases n
        simp [natDigitsAux]
      | succ fuel'' => simp [natDigitsAux, if_pos hn]
    · cases fuel' with
      | zero => omega
      | succ fuel'' =>
        have hlt : n / 10 < n := Nat.div_lt_self (by omega) (by omega)
        simp only [natDigitsAux, if_neg hn]
        rw [ih fuel'' (n / 10) (by omega) (by omega)]

theorem natDigits_eq (n : Nat) :
    natDigits n =
      if n < 10 then [Char.ofNat (48 + n)]
      else natDigits (n / 10) ++ [Char.ofNat (48 + n % 10)] := by
  by_cases hn : n < 10
  · unfold natDigits
    cases n with
    | zero => simp [natDigitsAux]
    | succ k => simp [natDigitsAux, if_pos hn]
  · have hlt : n / 10 < n := Nat.div_lt_self (by omega) (by omega)
    unfold natDigits
    cases n with
    | zero => omega
    | succ k =>
      simp only [natDigitsAux, if_neg hn]
      rw [natDigitsAux_fuel_eq k (k + 1) ((k + 1) / 10) (by omega) (by omega)]
      rw [natDigitsAux_fuel_eq (k + 1) ((k + 1) / 10) ((k + 1) / 10) (by omega) (by omega)]

theorem upperCharVal (r : Nat) (h : r < 26) : (Char.ofNat (65 + r)).toNat = 65 + r := by
  interval_cases r <;> decide

theorem digitCharVal (r : Nat) (h : r < 10) : (Char.ofNat (48 + r)).toNat = 48 + r := by
  interval_cases r <;> decide

theorem isUpperCh_ofNat (r : Nat) (h : r < 26) : isUpperCh (Char.ofNat (65 + r)) = true := by
  interval_cases r <;> decide

theorem isDigitCh_ofNat (r : Nat) (h : r < 10) : isDigitCh (Char.ofNat (48 + r)) = true := by
  interval_cases r <;> decide

theorem lettersToCol_append_singleton (xs : List Char) (ch : Char) :
    lettersToCol (xs ++ [ch]) = lettersToCol xs * 26 + (ch.toNat - 64) := by
  unfold lettersToCol
  rw [List.foldl_append]
  rfl

theorem digitsToNat_append_singleton (xs : List Char) (ch : Char) :
    digitsToNat (xs ++ [ch]) = digitsToNat xs * 10 + (ch.toNat - 48) := by
  unfold digitsToNat
  rw [List.foldl_append]
  rfl

theorem lettersToCol_encodeColumn (c : Nat) : lettersToCol (encodeColumn c) = c := by
  induction c using Nat.strong_induction_on with
  | _ c ih =>
    rw [encodeColumn_eq]
    by_cases hc : c = 0
    · subst hc; simp [lettersToCol]
    · have hlt : (c - 1) / 26 < c := by
        have := Nat.div_le_self (c - 1) 26; omega
      have hm : (c - 1) % 26 < 26 := Nat.mod_lt _ (by omega)
      rw [if_neg hc, lettersToCol_append_singleton, ih _ hlt, upperCharVal _ hm]
      omega

theorem digitsToNat_natDigits (n : Nat) : digitsToNat (natDigits n) = n := by
  induction n using Nat.strong_induction_on with
  | _ n ih =>
    rw [natDigits_eq]
    by_cases hn : n < 10
    · rw [if_pos hn]
      have : digitsToNat [Char.ofNat (48 + n)] = (Char.ofNat (48 + n)).toNat - 48 := by
        unfold digitsToNat; simp
      rw [this, digitCharVal _ hn]
      omega
    · have hlt : n / 10 < n := Nat.div_lt_self (by omega) (by omega)
      have hm : n % 10 < 10 := Nat.mod_lt _ (by omega)
      rw [if_neg hn, digitsToNat_append_singleton, ih _ hlt, digitCharVal _ hm]
      omega

theorem encodeColumn_all_upper (c : Nat) : (encodeColumn c).all isUpperCh = true := by
  induction c using Nat.strong_induction_on with
  | _ c ih =>
    rw [encodeColumn_eq]
    by_cases hc : c = 0
    · subst hc; simp
    · have hlt : (c - 1) / 26 < c := by
        have := Nat.div_le_self (c - 1) 26; omega
      have hm : (c - 1) % 26 < 26 := Nat.mod_lt _ (by omega)
      rw [if_neg hc, List.all_append]
      simp [ih _ hlt, isUpperCh_ofNat _ hm]

theorem natDigits_all_digit (n : Nat) : (natDigits n).all isDigitCh = true := by
  induction n using Nat.strong_induction_on with
  | _ n ih =>
    rw [natDigits_eq]
    by_cases hn : n < 10
    · simp [if_pos hn, isDigitCh_ofNat _ hn]
    · have hlt : n / 10 < n := Nat.div_lt_self (by omega) (by omega)
      have hm : n % 10 < 10 := Nat.mod_lt _ (by omega)
      rw [if_neg hn, List.all_append]
      simp [ih _ hlt, isDigitCh_ofNat _ hm]

theorem encodeColumn_ne_nil (c : Nat) (hc : c ≠ 0) : encodeColumn c ≠ [] := by
  rw [encodeColumn_eq, if_neg hc]
  simp

theorem natDigits_ne_nil (n : Nat) : natDigits n ≠ [] := by
  rw [natDigits_eq]
  by_cases hn : n < 10 <;> simp [hn]

theorem digit_not_upper (c : Char) (h : isDigitCh c = true) : isUpperCh c = false := by
  unfold isDigitCh at h
  unfold isUpperCh
  simp only [decide_eq_true_eq] at h
  simp only [decide_eq_false_iff_not]
  omega

theorem upper_digits_split (L D : List Char) (hL : L.all isUpperCh = true)
    (hD : D.all isDigitCh = true) (hDne : D ≠ []) :
    (L ++ D).takeWhile isUpperCh = L ∧ (L ++ D).dropWhile isUpperCh = D := by
  induction L with
  | nil =>
    cases D with
    | nil => exact absurd rfl hDne
    | cons d ds =>
      have hd : isDigitCh d = true := by
        simp only [List.all_cons, Bool.and_eq_true] at hD
        exact hD.1
      have : isUpperCh d = false := digit_not_upper d hd
      simp [List.takeWhile_cons, List.dropWhile_cons, this]
  | cons a as ih =>
    have ha : isUpperCh a = true := by
      simp only [List.all_cons, Bool.and_eq_true] at hL
      exact hL.1
    have has : as.all isUpperCh = true := by
      simp only [List.all_cons, Bool.and_eq_true] at hL
      exact hL.2
    obtain ⟨h1, h2⟩ := ih has
    simp [List.takeWhile_cons, List.dropWhile_cons, ha, h1, h2]

theorem decodeCell_of_valid (L D : List Char) (hL : L.all isUpperCh = true)
    (hD : D.all isDigitCh = true) (hLne : L ≠ []) (hDne : D ≠ []) :
    decodeCell (L ++ D) = some ⟨digitsToNat D, lettersToCol L⟩ := by
  obtain ⟨h1, h2⟩ := upper_digits_split L D hL hD hDne
  unfold decodeCell
  simp only [h1, h2]
  rw [if_pos ⟨hLne, hDne, hD⟩]

/-- C1: for all `r, c ≥ 1`, decoding the encoded reference returns the
original pair: `decodeCell (encodeCell r c) = some { row := r, col := c }`. -/
theorem decode_encode_roundtrip (r c : Nat) (hr : 1 ≤ r) (hc : 1 ≤ c) :
    decodeCell (encodeCell r c) = some ⟨r, c⟩ := by
  unfold encodeCell
  rw [decodeCell_of_valid (encodeColumn c) (natDigits r)
        (encodeColumn_all_upper c) (natDigits_all_digit r)
        (encodeColumn_ne_nil c (by omega)) (natDigits_ne_nil r)]
  rw [digitsToNat_natDigits, lettersToCol_encodeColumn]

/-- Witness for C1 at `r = 3`, `c = 28` (reference `AB3`). -/
theorem decode_encode_roundtrip_witness : decodeCell (encodeCell 3 28) = some ⟨3, 28⟩ :=
  decode_encode_roundtrip 3 28 (by norm_num) (by norm_num)

theorem encodeColumn_lettersToCol (L : List Char) (hL : L.all isUpperCh = true) :
    encodeColumn (lettersToCol L) = L := by
  induction L using List.reverseRecOn with
  | nil => rfl
  | append_singleton xs ch ih =>
    rw [List.all_append] at hL
    simp only [Bool.and_eq_true] at hL
    obtain ⟨hxs, hch⟩ := hL
    have hch' : 65 ≤ ch.toNat ∧ ch.toNat ≤ 90 := by
      have := hch
      simp only [List.all_cons, List.all_nil, Bool.and_true] at this
      unfold isUpperCh at this
      simpa using this
    rw [lettersToCol_append_singleton]
    rw [encodeColumn_eq]
    have hne : ¬(lettersToCol xs * 26 + (ch.toNat - 64) = 0) := by omega
    rw [if_neg hne]
    have h1 : (lettersToCol xs * 26 + (ch.toNat - 64) - 1) / 26 = lettersToCol xs := by omega
    have h2 : (lettersToCol xs * 26 + (ch.toNat - 64) - 1) % 26 = ch.toNat - 64 - 1 := by omega
    rw [h1, h2, ih hxs]
    have h3 : 65 + (ch.toNat - 64 - 1) = ch.toNat := by omega
    rw [h3, Char.ofNat_toNat]

theorem digitsToNat_foldl_ge (cs : List Char) :
    ∀ a : Nat, a ≤ cs.foldl (fun acc ch => acc * 10 + (ch.toNat - 48)) a := by
  induction cs with
  | nil => intro a; simp
  | cons c cs ih =>
    intro a
    calc a ≤ a * 10 + (c.toNat - 48) := by omega
    _ ≤ _ := by simpa using ih (a * 10 + (c.toNat - 48))

theorem digitsToNat_pos (x : Char) (xs : List Char) (hx : isDigitCh x = true)
    (h0 : x ≠ '0') : 1 ≤ digitsToNat (x :: xs) := by
  unfold isDigitCh at hx
  simp only [decide_eq_true_eq] at hx
  have hne : x.toNat ≠ 48 := by
    intro h
    apply h0
    have : x = Char.ofNat 48 := by rw [← h, Char.ofNat_toNat]
    simpa using this
  have h1 : 1 ≤ x.toNat - 48 := by omega
  unfold digitsToNat
  simp only [List.foldl_cons]
  calc (1 : Nat) ≤ 0 * 10 + (x.toNat - 48) := by omega
  _ ≤ _ := digitsToNat_foldl_ge xs _

theorem natDigits_digitsToNat (D : List Char) (hD : D.all isDigitCh = true)
    (hDne : D ≠ []) (hcanon : D.head? = some '0' → D = ['0']) :
    natDigits (digitsToNat D) = D := by
  induction D using List.reverseRecOn with
  | nil => exact absurd rfl hDne
  | append_singleton xs ch ih =>
    rw [List.all_append] at hD
    simp only [Bool.and_eq_true] at hD
    obtain ⟨hxs, hch⟩ := hD
    have hch' : 48 ≤ ch.toNat ∧ ch.toNat ≤ 57 := by
      have := hch
      simp only [List.all_cons, List.all_nil, Bool.and_true] at this
      unfold isDigitCh at this
      simpa using this
    cases xs with
    | nil =>
      have hdt : digitsToNat ([] ++ [ch]) = ch.toNat - 48 := by
        unfold digitsToNat; simp
      rw [hdt, natDigits_eq, if_pos (by omega : ch.toNat - 48 < 10)]
      have h3 : 48 + (ch.toNat - 48) = ch.toNat := by omega
      rw [h3, Char.ofNat_toNat]
      rfl
    | cons x xs' =>
      have hx : isDigitCh x = true := by
        simp only [List.all_cons, Bool.and_eq_true] at hxs
        exact hxs.1
      have hx0 : x ≠ '0' := by
        intro h
        have hlen := hcanon (by simp [h])
        have : ((x :: xs') ++ [ch]).length = 1 := by rw [hlen]; rfl
        simp at this
      have hv : 1 ≤ digitsToNat (x :: xs') := digitsToNat_pos x xs' hx hx0
      rw [digitsToNat_append_singleton]
      rw [natDigits_eq]
      have hge : ¬(digitsToNat (x :: xs') * 10 + (ch.toNat - 48) < 10) := by omega
      rw [if_neg hge]
      have h1 : (digitsToNat (x :: xs') * 10 + (ch.toNat - 48)) / 10 = digitsToNat (x :: xs') := by omega
      have h2 : (digitsToNat (x :: xs') * 10 + (ch.toNat - 48)) % 10 = ch.toNat - 48 := by omega
      rw [h1, h2, ih hxs (by simp) (fun h => absurd (by simpa using h) hx0)]
      have h3 : 48 + (ch.toNat - 48) = ch.toNat := by omega
      rw [h3, Char.ofNat_toNat]

/-- C2 counterexample: `"A01"` is accepted by the regex and decodes to
`{ row := 1, col := 1 }`, but re-encoding yields `"A1" ≠ "A01"`. -/
theorem encode_decode_cex :
    decodeCell "A01".data = some ⟨1, 1⟩ ∧
    encodeCell 1 1 = "A1".data ∧
    encodeCell 1 1 ≠ "A01".data :=
  ⟨by decide, by decide, by decide⟩

/-- C2 (amended): for a reference string `L ++ D` accepted by the regex
whose digit block is canonical (no leading zero, except the single digit
`"0"` itself), decoding then re-encoding reproduces the string exactly. -/
theorem encode_decode_canonical (L D : List Char) (hLne : L ≠ []) (hDne : D ≠ [])
    (hL : L.all isUpperCh = true) (hD : D.all isDigitCh = true)
    (hcanon : D.head? = some '0' → D = ['0']) :
    decodeCell (L ++ D) = some ⟨digitsToNat D, lettersToCol L⟩ ∧
    encodeCell (digitsToNat D) (lettersToCol L) = L ++ D := by
  refine ⟨decodeCell_of_valid L D hL hD hLne hDne, ?_⟩
  unfold encodeCell
  rw [encodeColumn_lettersToCol L hL, natDigits_digitsToNat D hD hDne hcanon]

/-- Witness for the amended C2 at `s = "AB12"`. -/
theorem encode_decode_canonical_witness :
    decodeCell ("AB".data ++ "12".data) = some ⟨digitsToNat "12".data, lettersToCol "AB".data⟩ ∧
    encodeCell (digitsToNat "12".data) (lettersToCol "AB".data) = "AB".data ++ "12".data :=
  encode_decode_canonical "AB".data "12".data (by decide) (by decide)
    (by decide) (by decide) (by decide)

/-- C9: `decodeCell` fails exactly on the strings not matching
one-or-more uppercase letters followed by one-or-more digits; in
particular `"1A"`, `"A-1"` and `""` fail. -/
theorem decode_invalid_spec :
    (∀ s, decodeCell s = none ↔ ¬ ValidRef s) ∧
    decodeCell "1A".data = none ∧
    decodeCell "A-1".data = none ∧
    decodeCell [] = none := by
  refine ⟨fun s => ?_, by decide, by decide, by decide⟩
  constructor
  · intro hnone hval
    obtain ⟨L, D, rfl, hLne, hDne, hL, hD⟩ := hval
    rw [decodeCell_of_valid L D hL hD hLne hDne] at hnone
    exact Option.noConfusion hnone
  · intro hnval
    unfold decodeCell
    by_cases hcond : s.takeWhile isUpperCh ≠ [] ∧ s.dropWhile isUpperCh ≠ [] ∧
        (s.dropWhile isUpperCh).all isDigitCh
    · exfalso
      apply hnval
      refine ⟨s.takeWhile isUpperCh, s.dropWhile isUpperCh,
        (List.takeWhile_append_dropWhile isUpperCh s).symm, hcond.1, hcond.2.1, ?_, hcond.2.2⟩
      exact List.all_eq_true.mpr fun x hx => List.mem_takeWhile_imp hx
    · rw [if_neg hcond]

/-! ### Cell text resolver -/

/-- C3: numeric value with no collaborator text: a format hint containing
one of `"0.00"`, `"#.##"`, `"0.0"` yields `toFixed` with the decimal count
of the first `/\.0+/` match (default count when no such match); any other
hint yields the natural string form.  Concretely: `700` with `"0.00"` is
`"700.00"`, `700` with no hint and default 2 is `"700"`, `3.5` with no
hint is `"3.5"`, and a null value is `""`. -/
theorem extract_numeric_format_policy :
    (∀ (f : List Char → List Char) (q : ℚ) (fmt : List Char) (fixedAt : Nat),
        fmtHasDecimalHint fmt = true →
        extractCellText f ⟨.vnum q, none, some fmt⟩ fixedAt = toFixed q (decPlaces fmt fixedAt))
  ∧ (∀ (f : List Char → List Char) (q : ℚ) (fmt : List Char) (fixedAt : Nat),
        fmtHasDecimalHint fmt = false →
        extractCellText f ⟨.vnum q, none, some fmt⟩ fixedAt = jsNumToString q)
  ∧ (∀ f : List Char → List Char,
        extractCellText f ⟨.vnum 700, none, some "0.00".data⟩ 2 = "700.00".data)
  ∧ (∀ f : List Char → List Char,
        extractCellText f ⟨.vnum 700, none, none⟩ 2 = "700".data)
  ∧ (∀ f : List Char → List Char,
        extractCellText f ⟨.vnum (7 / 2 : ℚ), none, none⟩ 2 = "3.5".data)
  ∧ (∀ (f : List Char → List Char) (t nf : Option (List Char)) (fixedAt : Nat),
        extractCellText f ⟨.vnull, t, nf⟩ fixedAt = []) := by
  refine ⟨?_, ?_, ?_, ?_, ?_, ?_⟩
  · intro f q fmt fixedAt h
    simp [extractCellText, orEmpty, h]
  · intro f q fmt fixedAt h
    simp [extractCellText, orEmpty, truthyStr, h]
  · intro f
    with_unfolding_all rfl
  · intro f
    with_unfolding_all rfl
  · intro f
    with_unfolding_all rfl
  · intro f t nf fixedAt
    rfl

/-- C4 counterexample: a formula value carrying both an evaluated result
(`result: 5`) and an error code (`error: "div/0"`): the code returns the
formatted result `"5"`, not `"#DIV/0"`, because the `result` check comes
before the `error` check. -/
theorem formula_error_cex :
    extractCellText (fun s => s)
        ⟨.vobj ⟨some (.lnum 5), none, none, none, some "A1/A2".data, some "div/0".data, none⟩,
          none, none⟩ 2 = "5".data ∧
    extractCellText (fun s => s)
        ⟨.vobj ⟨some (.lnum 5), none, none, none, some "A1/A2".data, some "div/0".data, none⟩,
          none, none⟩ 2 ≠ "#DIV/0".data := by
  constructor
  · with_unfolding_all rfl
  · intro h
    have h5 : extractCellText (fun s => s)
        ⟨.vobj ⟨some (.lnum 5), none, none, none, some "A1/A2".data, some "div/0".data, none⟩,
          none, none⟩ 2 = "5".data := by with_unfolding_all rfl
    rw [h5] at h
    exact absurd h (by decide)

/-- C4 (amended): the error rule `"#" + errorCode.toUpperCase()` applies
to a formula value only when it has no evaluated result and no
rich-text/text payload; when an evaluated numeric result is present, the
numeric-result rule takes priority over the error rule. -/
theorem formula_error_priority :
    (∀ (f : List Char → List Char) (o : JsObject) (t nf : Option (List Char)) (fixedAt : Nat),
        o.result = none → o.richText = none → truthyStr o.vtext = false →
        truthyStr o.formula = true → truthyStr o.error = true →
        extractCellText f ⟨.vobj o, t, nf⟩ fixedAt = '#' :: (orEmpty o.error).map jsToUpper)
  ∧ (∀ (f : List Char → List Char) (o : JsObject) (t nf : Option (List Char))
        (fixedAt : Nat) (q : ℚ),
        o.result = some (.lnum q) →
        extractCellText f ⟨.vobj o, t, nf⟩ fixedAt = formatJsNumber q (orEmpty nf) fixedAt) := by
  constructor
  · intro f o t nf fixedAt hres hrt hvt hf herr
    simp [extractCellText, hres, hrt, hvt, hf, herr]
  · intro f o t nf fixedAt q hres
    simp [extractCellText, hres]

/-- C10: numeric value whose format hint names no decimal pattern: the
collaborator text is returned verbatim exactly when it is non-empty,
contains a dot, does not start with `'='` and contains no `'('`; in every
other case the number's natural string form is returned. -/
theorem numeric_collab_text (f : List Char → List Char) (q : ℚ)
    (ot nf : Option (List Char)) (fixedAt : Nat)
    (hfmt : fmtHasDecimalHint (orEmpty nf) = false) :
    extractCellText f ⟨.vnum q, ot, nf⟩ fixedAt =
      if truthyStr ot = true ∧ (orEmpty ot).contains '.' = true ∧
          leadsWith "=".data (orEmpty ot) = false ∧ (orEmpty ot).contains '(' = false
      then orEmpty ot
      else jsNumToString q := by
  by_cases hA : truthyStr ot = true <;>
    by_cases hB : (orEmpty ot).contains '.' = true <;>
      by_cases hC : leadsWith "=".data (orEmpty ot) = true <;>
        by_cases hD : (orEmpty ot).contains '(' = true <;>
          simp_all [extractCellText, orEmpty]

/-- Witness for C10: value `3.5` with collaborator text `"3.50"` (dotted,
no `=`, no parenthesis) returns the collaborator text. -/
theorem numeric_collab_text_witness :
    extractCellText (fun s => s) ⟨.vnum (7 / 2 : ℚ), some "3.50".data, none⟩ 2 = "3.50".data := by
  rw [numeric_collab_text (fun s => s) (7 / 2 : ℚ) (some "3.50".data) none 2 (by decide)]
  decide

/-! ### Merge map -/

theorem foldl_mergeStep_isSome (ms : List MergeRegion) :
    ∀ (acc : Nat → Nat → Option MergeInfo) (r c : Nat),
      ((ms.foldl mergeStep acc) r c).isSome = true ↔
        (∃ m ∈ ms, coversB m r c = true) ∨ (acc r c).isSome = true := by
  induction ms with
  | nil =>
    intro acc r c
    simp
  | cons m ms ih =>
    intro acc r c
    rw [List.foldl_cons, ih]
    have hstep : (mergeStep acc m) r c =
        if coversB m r c then some (regionInfo m) else acc r c := rfl
    by_cases hc : coversB m r c = true
    · rw [hstep, if_pos hc]
      simp only [Option.isSome_some]
      constructor
      · intro _
        exact Or.inl ⟨m, List.mem_cons_self m ms, hc⟩
      · intro _
        exact Or.inr (by trivial)
    · rw [hstep, if_neg hc]
      constructor
      · rintro (⟨m', hm', hc'⟩ | hacc)
        · exact Or.inl ⟨m', List.mem_cons_of_mem m hm', hc'⟩
        · exact Or.inr hacc
      · rintro (⟨m', hm', hc'⟩ | hacc)
        · rcases List.mem_cons.mp hm' with rfl | hm''
          · exact absurd hc' hc
          · exact Or.inl ⟨m', hm'', hc'⟩
        · exact Or.inr hacc

/-- C5: the merge map has an entry exactly for the cells inside some
region's inclusive bounds; on overlap the later region of the input list
wins; for the region `(top 2, left 2, bottom 3, right 4)` it covers
exactly 6 cells, with anchor `(2,2)` and the 5 others secondary, all
referencing that same region. -/
theorem merge_map_spec :
    (∀ (ms : List MergeRegion) (r c : Nat),
        (buildMergeMap ms r c).isSome = true ↔ ∃ m ∈ ms, coversB m r c = true)
  ∧ (∀ (m1 m2 : MergeRegion) (r c : Nat), coversB m2 r c = true →
        buildMergeMap [m1, m2] r c = some (regionInfo m2))
  ∧ (((List.range 6).flatMap fun r => (List.range 6).map fun c => (r, c)).filter
        (fun p => (buildMergeMap [⟨2, 2, 3, 4⟩] p.1 p.2).isSome)
        = [(2, 2), (2, 3), (2, 4), (3, 2), (3, 3), (3, 4)])
  ∧ isAnchor (buildMergeMap [⟨2, 2, 3, 4⟩]) 2 2 = true
  ∧ (((List.range 6).flatMap fun r => (List.range 6).map fun c => (r, c)).filter
        (fun p => isSecondary (buildMergeMap [⟨2, 2, 3, 4⟩]) p.1 p.2)
        = [(2, 3), (2, 4), (3, 2), (3, 3), (3, 4)])
  ∧ ([(2, 2), (2, 3), (2, 4), (3, 2), (3, 3), (3, 4)].all
        (fun p : Nat × Nat =>
          decide (buildMergeMap [⟨2, 2, 3, 4⟩] p.1 p.2 = some ⟨2, 2, 3, 4⟩)) = true) := by
  refine ⟨fun ms r c => ?_, fun m1 m2 r c h => ?_, by decide, by decide, by decide, by decide⟩
  · rw [buildMergeMap, foldl_mergeStep_isSome]
    simp
  · simp [buildMergeMap, List.foldl, mergeStep, h]

/-! ### Column width solver -/

theorem addWidthN_sum (ws : List ℚ) :
    ∀ (n : Nat) (d : ℚ), n ≤ ws.length →
      ((addWidthN ws n d).take n).sum = (ws.take n).sum + n * d := by
  induction ws with
  | nil =>
    intro n d h
    have hn : n = 0 := by simpa using h
    subst hn
    simp [addWidthN]
  | cons w ws ih =>
    intro n d h
    cases n with
    | zero => simp [addWidthN]
    | succ n =>
      simp only [addWidthN, List.take_succ_cons, List.sum_cons]
      rw [ih n d (by simpa using h)]
      push_cast
      ring

theorem addWidthFrom_sliceSum (ws : List ℚ) :
    ∀ (lo n : Nat) (d : ℚ), lo + n ≤ ws.length →
      sliceSum (addWidthFrom ws lo n d) lo n = sliceSum ws lo n + n * d := by
  induction ws with
  | nil =>
    intro lo n d h
    simp only [List.length_nil, Nat.le_zero] at h
    have hlo : lo = 0 := by omega
    have hn : n = 0 := by omega
    subst hlo; subst hn
    simp [sliceSum, addWidthFrom, addWidthN]
  | cons w ws ih =>
    intro lo n d h
    cases lo with
    | zero =>
      simp only [addWidthFrom, sliceSum, List.drop_zero]
      exact addWidthN_sum (w :: ws) n d (by simpa using h)
    | succ lo =>
      simp only [addWidthFrom, sliceSum, List.drop_succ_cons]
      exact ih lo n d (by simp only [List.length_cons] at h; omega)

theorem addWidthN_getElem? (ws : List ℚ) :
    ∀ (n : Nat) (d : ℚ) (i : Nat),
      (addWidthN ws n d)[i]? = if i < n then ws[i]?.map (· + d) else ws[i]? := by
  induction ws with
  | nil =>
    intro n d i
    cases n <;> simp [addWidthN]
  | cons w ws ih =>
    intro n d i
    cases n with
    | zero => simp [addWidthN]
    | succ n =>
      cases i with
      | zero => simp [addWidthN]
      | succ i =>
        simp only [addWidthN, List.getElem?_cons_succ, ih n d i]
        have hiff : i < n ↔ i + 1 < n + 1 := by omega
        rw [if_congr hiff rfl rfl]

theorem addWidthFrom_getElem? (ws : List ℚ) :
    ∀ (lo n : Nat) (d : ℚ) (i : Nat),
      (addWidthFrom ws lo n d)[i]? =
        if lo ≤ i ∧ i < lo + n then ws[i]?.map (· + d) else ws[i]? := by
  induction ws with
  | nil =>
    intro lo n d i
    cases lo <;> cases n <;> simp [addWidthFrom, addWidthN]
  | cons w ws ih =>
    intro lo n d i
    cases lo with
    | zero =>
      rw [addWidthFrom, addWidthN_getElem?]
      have hiff : i < n ↔ 0 ≤ i ∧ i < 0 + n := by omega
      rw [if_congr hiff rfl rfl]
    | succ lo =>
      cases i with
      | zero =>
        simp only [addWidthFrom, List.getElem?_cons_zero]
        rw [if_neg (by omega)]
      | succ i =>
        simp only [addWidthFrom, List.getElem?_cons_succ, ih lo n d i]
        have hiff : (lo ≤ i ∧ i < lo + n) ↔ (lo + 1 ≤ i + 1 ∧ i + 1 < lo + 1 + n) := by omega
        rw [if_congr hiff rfl rfl]

/-- C6: merge-anchor width update: when the spanned sum is below the
required width, every spanned column gains `deficit / numSpannedCols`, the
spanned sum becomes exactly the required width, and no other column
changes; when the spanned sum already meets it, nothing changes. -/
theorem merge_width_update (ws : List ℚ) (startCol endCol : Nat) (tw : ℚ)
    (h1 : 1 ≤ startCol) (h2 : startCol ≤ endCol) (h3 : endCol ≤ ws.length) :
    (sliceSum ws (startCol - 1) (endCol - startCol + 1) < tw →
        sliceSum (applyMergeAnchorWidth ws startCol endCol tw)
            (startCol - 1) (endCol - startCol + 1) = tw
      ∧ (∀ i, startCol - 1 ≤ i → i < endCol →
          (applyMergeAnchorWidth ws startCol endCol tw)[i]? =
            ws[i]?.map
              (· + (tw - sliceSum ws (startCol - 1) (endCol - startCol + 1)) /
                ((endCol - startCol + 1 : Nat) : ℚ)))
      ∧ (∀ i, i < startCol - 1 ∨ endCol ≤ i →
          (applyMergeAnchorWidth ws startCol endCol tw)[i]? = ws[i]?))
  ∧ (tw ≤ sliceSum ws (startCol - 1) (endCol - startCol + 1) →
      applyMergeAnchorWidth ws startCol endCol tw = ws) := by
  have hlon : startCol - 1 + (endCol - startCol + 1) = endCol := by omega
  have hn0 : ((endCol - startCol + 1 : Nat) : ℚ) ≠ 0 := by
    exact_mod_cast (by omega : (endCol - startCol + 1 : Nat) ≠ 0)
  constructor
  · intro hlt
    simp only [applyMergeAnchorWidth, if_pos hlt]
    refine ⟨?_, ?_, ?_⟩
    · rw [addWidthFrom_sliceSum ws (startCol - 1) (endCol - startCol + 1) _ (by omega)]
      rw [mul_comm, div_mul_cancel₀ _ hn0]
      ring
    · intro i hi1 hi2
      rw [addWidthFrom_getElem?]
      rw [if_pos ⟨hi1, by omega⟩]
    · intro i hi
      rw [addWidthFrom_getElem?]
      rw [if_neg (by omega)]
  · intro hge
    simp only [applyMergeAnchorWidth]
    rw [if_neg (not_lt.mpr hge)]

/-- Witness for C6: widths `[1, 2, 3]`, anchor spanning columns 1..2,
required width 10: after the update the spanned sum is exactly 10. -/
theorem merge_width_update_witness :
    sliceSum (applyMergeAnchorWidth [1, 2, 3] 1 2 10) 0 2 = 10 :=
  ((merge_width_update [1, 2, 3] 1 2 10 (by norm_num) (by norm_num) (by norm_num)).1
    (by norm_num [sliceSum])).1

/-! ### Row placement and pagination -/

theorem placeRowsY_length (pag : Bool) (ph m rh : ℚ) :
    ∀ (n : Nat) (y : ℚ), (placeRowsY pag ph m rh n y).length = n := by
  intro n
  induction n with
  | zero => intro y; rfl
  | succ n ih => intro y; simp [placeRowsY, ih]

/-- C7: pagination row placement: a break fires exactly when pagination is
on and `y + rowHeight > pageHeight - margin`; the first row is placed at
the initial cursor (reset to the margin if it broke); every later row is
placed at the previous row's `y` advanced by exactly one row height,
reset to the margin exactly when the break test fires on that advanced
cursor; with `rowHeight = 20`, `pageHeight = 100`, `margin = 10` the break
fires exactly when `y + 20 > 90`. -/
theorem pagination_spec :
    (∀ (pag : Bool) (ph m rh y : ℚ),
        pageBreakNeeded pag ph m rh y = true ↔ (pag = true ∧ y + rh > ph - m))
  ∧ (∀ (pag : Bool) (ph m rh : ℚ) (n : Nat) (y : ℚ)
        (h : 0 < (placeRowsY pag ph m rh n y).length),
        (placeRowsY pag ph m rh n y).get ⟨0, h⟩ =
          (pageBreakNeeded pag ph m rh y,
            if pageBreakNeeded pag ph m rh y then m else y))
  ∧ (∀ (pag : Bool) (ph m rh : ℚ) (n : Nat) (y : ℚ) (i : Nat)
        (h : i + 1 < (placeRowsY pag ph m rh n y).length),
        (placeRowsY pag ph m rh n y).get ⟨i + 1, h⟩ =
          (pageBreakNeeded pag ph m rh
              (((placeRowsY pag ph m rh n y).get ⟨i, Nat.lt_of_succ_lt h⟩).2 + rh),
            if pageBreakNeeded pag ph m rh
                (((placeRowsY pag ph m rh n y).get ⟨i, Nat.lt_of_succ_lt h⟩).2 + rh)
            then m
            else ((placeRowsY pag ph m rh n y).get ⟨i, Nat.lt_of_succ_lt h⟩).2 + rh))
  ∧ (∀ y : ℚ, pageBreakNeeded true 100 10 20 y = true ↔ y + 20 > 90)
  ∧ placeRowsY true 100 10 20 6 10 =
      [(false, 10), (false, 30), (false, 50), (false, 70), (true, 10), (false, 30)] := by
  refine ⟨?_, ?_, ?_, ?_, by with_unfolding_all decide⟩
  · intro pag ph m rh y
    simp [pageBreakNeeded, Bool.and_eq_true, decide_eq_true_iff]
  · intro pag ph m rh n y h
    cases n with
    | zero => simp [placeRowsY] at h
    | succ n => simp [placeRowsY]
  · intro pag ph m rh n y i
    induction i generalizing n y with
    | zero =>
      intro h
      cases n with
      | zero => simp [placeRowsY] at h
      | succ n =>
        cases n with
        | zero =>
          rw [placeRowsY_length] at h
          omega
        | succ n => simp [placeRowsY]
    | succ i ih =>
      intro h
      cases n with
      | zero => simp [placeRowsY] at h
      | succ n =>
        have h' : i + 1 < (placeRowsY pag ph m rh n
            ((if pageBreakNeeded pag ph m rh y then m else y) + rh)).length := by
          rw [placeRowsY_length] at h ⊢
          omega
        have := ih n ((if pageBreakNeeded pag ph m rh y then m else y) + rh) h'
        simpa [placeRowsY] using this
  · intro y
    simp only [pageBreakNeeded, Bool.true_and, decide_eq_true_iff]
    constructor
    · intro h; linarith
    · intro h; linarith

/-! ### Page-dimension capping -/

/-- C8: when the computed page width exceeds the 14400-unit maximum it is
capped at the maximum; when the page height exceeds the maximum with
pagination off, pagination is forced on and the height becomes the letter
height 792; within the maximum with pagination off, both dimensions pass
through unchanged. -/
theorem page_dims_capping :
    (∀ (pw ph : ℚ) (pag : Bool), pw > MAX_SIZE →
        (adjustPageDims pw ph pag).pageWidth = MAX_SIZE)
  ∧ (∀ pw ph : ℚ, ph > MAX_SIZE →
        adjustPageDims pw ph false =
          ⟨if pw > MAX_SIZE then MAX_SIZE else pw, 792, true⟩)
  ∧ (∀ (pw ph : ℚ) (pag : Bool), pw ≤ MAX_SIZE → ph ≤ MAX_SIZE → pag = false →
        adjustPageDims pw ph pag = ⟨pw, ph, false⟩) := by
  refine ⟨?_, ?_, ?_⟩
  · intro pw ph pag hpw
    unfold adjustPageDims
    rw [if_pos (Or.inl hpw)]
    cases pag with
    | false =>
      by_cases hph : ph > MAX_SIZE
      · rw [if_pos ⟨hph, rfl⟩]
        simp [if_pos hpw]
      · rw [if_neg (by simp [hph]), if_pos ⟨hpw, not_lt.mp hph, rfl⟩]
    | true =>
      rw [if_neg (by simp), if_neg (by simp), if_pos rfl]
      simp [if_pos hpw]
  · intro pw ph hph
    unfold adjustPageDims
    rw [if_pos (Or.inr hph), if_pos ⟨hph, rfl⟩]
  · intro pw ph pag hpw hph hpag
    subst hpag
    unfold adjustPageDims
    rw [if_neg (by push_neg; exact ⟨hpw, hph⟩)]

end ExcelToPdf
